import Mathlib

set_option maxRecDepth 8000

/-!
Shallow embedding of the CLIP-style BPE tokenizer in
`src/tokenizers/SimpleTokenizer.ts`.

JavaScript strings are sequences of UTF-16 code units; every code unit this
tokenizer manipulates lies below `0x10000`, so a string is modelled as a
`List Nat` of code units (type `Str`).  JavaScript `Map` objects are modelled
as association lists read through `alookup` (all keys the source inserts into
a given `Map` are pairwise distinct, so insertion-order association lookup
agrees with `Map.get`).
-/

/-- A JavaScript string: its list of UTF-16 code units. -/
abbrev Str : Type := List Nat

/-- JavaScript truthiness of a `number | undefined` value as used by
`if (id)` / `if (b)` in the source: `undefined` and `0` are falsy. -/
def jsTruthy : Option Nat → Bool
  | some n => n != 0
  | none => false

/-- JavaScript truthiness of a `string | undefined` value as used by
`if (t)` in `decode`: `undefined` and the empty string are falsy. -/
def jsTruthyStr : Option Str → Bool
  | some s => s != []
  | none => false

/-- Association-list lookup modelling `Map.get`. -/
def alookup {α β : Type} [DecidableEq α] (k : α) : List (α × β) → Option β
  | [] => none
  | p :: rest => if p.1 = k then some p.2 else alookup k rest

/-! ### Byte ↔ unicode codec (`createByteEncoderDecoder`) -/

/-- The three printable byte ranges of `createByteEncoderDecoder`:
`"!".."~"` (33..126), `"¡".."¬"` (161..172), `"®".."ÿ"` (174..255). -/
def bytesInit : List Nat :=
  ((List.range (126 - 33 + 1)).map (fun i => 33 + i)) ++
  ((List.range (172 - 161 + 1)).map (fun i => 161 + i)) ++
  ((List.range (255 - 174 + 1)).map (fun i => 174 + i))

/-- The gap-filling loop of `createByteEncoderDecoder`: for each `b` in
`0..255` not yet in `bytes`, push `b` onto `bytes` and `256 + n` onto
`copyBytes`, incrementing `n`.  The state is `(bytes, copyBytes, n)`. -/
def fillBytes : List Nat × List Nat × Nat :=
  (List.range 256).foldl
    (fun acc b =>
      if b ∈ acc.1 then acc
      else (acc.1 ++ [b], acc.2.1 ++ [256 + acc.2.2], acc.2.2 + 1))
    (bytesInit, bytesInit, 0)

/-- The `byteEncoder` map as an association list: entry `i` is
`(bytes[i], copyBytes[i])`, the symbol being the single code unit produced by
`String.fromCharCode(copyBytes[i])`. -/
def encPairs : List (Nat × Nat) := fillBytes.1.zip fillBytes.2.1

/-- The `byteDecoder` map: the same entries with key and value swapped. -/
def decPairs : List (Nat × Nat) := encPairs.map (fun p => (p.2, p.1))

/-- Lookup `byteEncoder.get(b)`. -/
def byteEncode (b : Nat) : Option Nat := alookup b encPairs

/-- Lookup `byteDecoder.get(c)`. -/
def byteDecode (c : Nat) : Option Nat := alookup c decPairs

/-! ### Association-list lookup lemmas -/

theorem alookup_mem {α β : Type} [DecidableEq α] {l : List (α × β)}
    {k : α} {v : β} (h : alookup k l = some v) : (k, v) ∈ l := by
  induction l with
  | nil => simp [alookup] at h
  | cons p rest ih =>
    rw [alookup] at h
    by_cases hk : p.1 = k
    · rw [if_pos hk] at h
      obtain ⟨a, b⟩ := p
      injection h with h2
      simp at hk
      subst hk; subst h2
      exact List.mem_cons_self _ _
    · rw [if_neg hk] at h
      exact List.mem_cons_of_mem _ (ih h)

theorem exists_alookup_of_mem_keys {α β : Type} [DecidableEq α]
    {l : List (α × β)} {k : α} (h : k ∈ l.map Prod.fst) :
    ∃ v, alookup k l = some v := by
  induction l with
  | nil => simp at h
  | cons p rest ih =>
    rw [alookup]
    by_cases hk : p.1 = k
    · exact ⟨p.2, by rw [if_pos hk]⟩
    · rw [if_neg hk]
      rw [List.map_cons, List.mem_cons] at h
      rcases h with h | h
      · exact absurd h.symm hk
      · exact ih h

theorem alookup_of_mem_nodup {α β : Type} [DecidableEq α]
    {l : List (α × β)} {k : α} {v : β}
    (hnd : (l.map Prod.fst).Nodup) (h : (k, v) ∈ l) : alookup k l = some v := by
  induction l with
  | nil => simp at h
  | cons p rest ih =>
    rw [List.map_cons, List.nodup_cons] at hnd
    rw [alookup]
    rcases List.mem_cons.mp h with h | h
    · rw [← h]
      simp
    · have hk : p.1 ≠ k := by
        intro hkk
        exact hnd.1 (hkk ▸ List.mem_map.mpr ⟨(k, v), h, rfl⟩)
      rw [if_neg hk]
      exact ih hnd.2 h

/-! ### Facts about the concrete codec, established once by evaluation -/

set_option maxHeartbeats 4000000 in
theorem encPairs_facts :
    (encPairs.map Prod.fst).Nodup ∧ (encPairs.map Prod.snd).Nodup ∧
    (∀ b < 256, b ∈ encPairs.map Prod.fst) := by decide

/-- C2: the byte-to-unicode codec is a total bijection over the 256 byte
values: every byte `b < 256` is assigned a symbol which the byte decoder maps
back to `b`, and distinct bytes receive distinct symbols. -/
theorem byte_codec_bijective (b : Nat) (hb : b < 256) :
    (∃ s, byteEncode b = some s ∧ byteDecode s = some b) ∧
    (∀ b', b' < 256 → byteEncode b' = byteEncode b → b' = b) := by
  obtain ⟨hnd1, hnd2, hmem⟩ := encPairs_facts
  have roundtrip : ∀ c, c < 256 →
      ∃ s, byteEncode c = some s ∧ byteDecode s = some c := by
    intro c hc
    obtain ⟨v, hv⟩ := exists_alookup_of_mem_keys (hmem c hc)
    refine ⟨v, hv, ?_⟩
    have hmem2 : (v, c) ∈ decPairs :=
      List.mem_map.mpr ⟨(c, v), alookup_mem hv, rfl⟩
    have hnd2' : (decPairs.map Prod.fst).Nodup := by
      have hre : decPairs.map Prod.fst = encPairs.map Prod.snd := by
        simp [decPairs, Function.comp]
      rw [hre]; exact hnd2
    exact alookup_of_mem_nodup hnd2' hmem2
  refine ⟨roundtrip b hb, ?_⟩
  intro b' hb' heq
  obtain ⟨s, hs, hdec⟩ := roundtrip b hb
  obtain ⟨t, ht, hdect⟩ := roundtrip b' hb'
  have hts : t = s := Option.some.inj ((ht.symm.trans heq).trans hs)
  subst hts
  exact Option.some.inj (hdect.symm.trans hdec)

theorem byte_codec_bijective_witness :
    (∃ s, byteEncode 65 = some s ∧ byteDecode s = some 65) ∧
    (∀ b', b' < 256 → byteEncode b' = byteEncode 65 → b' = 65) :=
  byte_codec_bijective 65 (by decide)

/-! ### BPE merge engine (`bpe`, `getPairs`) -/

/-- The end-of-word marker `"</w>"`. -/
def eow : Str := [60, 47, 119, 62]

/-- Helper for `getPairs`: the loop `for (i = 1; ...)` carrying `prevChar`. -/
def getPairsAux (prevChar : Str) : List Str → List Str
  | [] => []
  | c :: rest => (prevChar ++ [32] ++ c) :: getPairsAux c rest

/-- The function `getPairs`: the adjacent symbol pairs of a word, each encoded (as in the
source) as the two symbols joined by a single space, `` `${prevChar} ${char}` ``.
Words of fewer than two symbols have no pairs. -/
def getPairs (word : List Str) : List Str :=
  match word with
  | [] => []
  | w0 :: rest => getPairsAux w0 rest

/-- Comparison `rank < bestRank` of `bpe`, where a pair absent from
`bpeRanks` gets rank `Infinity` (`?? Infinity`). -/
def rankLt : Option Nat → Option Nat → Bool
  | some a, some b => a < b
  | some _, none => true
  | none, _ => false

/-- The `pairs.reduce(...)` of `bpe`: the accumulator starts at the first
pair and is replaced only when a strictly lower rank is found. -/
def jsReduceMin (ranks : Str → Option Nat) : Str → List Str → Str
  | best, [] => best
  | best, p :: rest =>
      jsReduceMin ranks (if rankLt (ranks p) (ranks best) then p else best) rest

/-- The call `word.indexOf(first, i)` relative to the suffix of `word` starting at
`i`: the offset of the first occurrence of `a`. -/
def idxOf (a : Str) : List Str → Option Nat
  | [] => none
  | x :: xs => if x = a then some 0 else (idxOf a xs).map (· + 1)

/-- The inner rewrite loop of `bpe` (`while (i < word.length) { ... }`):
repeatedly `indexOf` the next occurrence of `first`, copying the elements
before it; when it is directly followed by `second`, push the merged symbol
`first + second` and advance past both, otherwise copy the occurrence
(`word[j]`, which equals `first` by the index search) and advance past it. -/
def bpeMergeWord (first second : Str) (word : List Str) : List Str :=
  match h : idxOf first word with
  | none => word
  | some j =>
      if word.get? (j + 1) = some second then
        word.take j ++ [first ++ second] ++
          bpeMergeWord first second (word.drop (j + 2))
      else
        word.take j ++ [first] ++ bpeMergeWord first second (word.drop (j + 1))
termination_by word.length
decreasing_by
  all_goals
    simp only [List.length_drop]
    have hlen : 0 < word.length := by
      cases word with
      | nil => simp [idxOf] at h
      | cons _ _ => simp
    omega

/-- Spec-side rewrite ("merge every non-overlapping, left-to-right adjacent
occurrence of exactly that pair into a single combined symbol"). -/
def specMergePairs (first second : Str) : List Str → List Str
  | [] => []
  | [x] => [x]
  | x :: y :: rest =>
      if x = first ∧ y = second then
        (first ++ second) :: specMergePairs first second rest
      else
        x :: specMergePairs first second (y :: rest)
termination_by l => l.length

/-- JavaScript `s.split(" ")`. -/
def splitOnSpaces : Str → List Str
  | [] => [[]]
  | c :: rest =>
      if c = 32 then [] :: splitOnSpaces rest
      else
        match splitOnSpaces rest with
        | [] => [[c]]
        | p :: ps => (c :: p) :: ps

/-- The destructuring `const [first, second] = bigram.split(" ")` (a missing
component would be `undefined`; it never is on the strings `bpe` builds, and
is modelled as the empty string). -/
def splitSpace (s : Str) : Str × Str :=
  ((splitOnSpaces s).getD 0 [], (splitOnSpaces s).getD 1 [])

/-- The `while (true)` merge loop of `bpe`.  The recursive call is guarded
by the loop variant `word'.length < word.length`; the guard provably holds
whenever the loop runs on the words the source builds (see
`bpe_merge_strictly_decreases`), so the guarded loop coincides with the
source's unguarded one there.  The `[]` branch mirrors the fact that the
loop is only ever entered with a nonempty pair list. -/
def bpeLoop (ranks : Str → Option Nat) (word : List Str) : List Str :=
  match getPairs word with
  | [] => word
  | b0 :: brest =>
      let bigram := jsReduceMin ranks b0 brest
      if ranks bigram = none then word
      else
        let fs := splitSpace bigram
        let word' := bpeMergeWord fs.1 fs.2 word
        if word'.length = 1 then word'
        else
          if h : word'.length < word.length then bpeLoop ranks word'
          else word'
termination_by word.length

/-- The word construction `[...token.slice(0, -1), token.slice(-1) + "</w>"]`. -/
def initWord (token : Str) : List Str :=
  (token.take (token.length - 1)).map (fun c => [c]) ++
    [token.drop (token.length - 1) ++ eow]

/-- The join `word.join(" ")`. -/
def joinSpaces : List Str → Str
  | [] => []
  | [s] => s
  | s :: rest => s ++ [32] ++ joinSpaces rest

/-- The body of `bpe` past the cache check. -/
def bpeCore (ranks : Str → Option Nat) (token : Str) : Str :=
  let word := initWord token
  let pairs := getPairs word
  if pairs = [] then token ++ eow
  else joinSpaces (bpeLoop ranks word)

/-- The function `bpe(token)`.  The source memoizes results in `this.cache`; the cache is
pre-seeded with the special tokens (mapped to themselves) and thereafter
only ever stores the value this computation returns, so it is modelled as
the immutable pre-seeded map `cache` (a falsy — empty — cached string is
skipped, as in the source's `if (cacheToken)`). -/
def bpe (cache : Str → Option Str) (ranks : Str → Option Nat)
    (token : Str) : Str :=
  match cache token with
  | some r => if r = [] then bpeCore ranks token else r
  | none => bpeCore ranks token

/-! ### The pair selected by `pairs.reduce` is the leftmost minimal-rank pair -/

theorem rankLt_irrefl (a : Option Nat) : rankLt a a = false := by
  cases a <;> simp [rankLt]

theorem rankLt_trans {a b c : Option Nat} (h1 : rankLt a b = true)
    (h2 : rankLt b c = true) : rankLt a c = true := by
  cases a <;> cases b <;> cases c <;> simp [rankLt] at * <;> omega

theorem rankLt_of_lt_of_nlt {a b c : Option Nat} (h1 : rankLt a b = true)
    (h2 : rankLt c b = false) : rankLt a c = true := by
  cases a <;> cases b <;> cases c <;> simp [rankLt] at * <;> omega

theorem rankLt_of_nlt_of_lt {a b c : Option Nat} (h1 : rankLt b a = false)
    (h2 : rankLt b c = true) : rankLt a c = true := by
  cases a <;> cases b <;> cases c <;> simp [rankLt] at * <;> omega

/-- Spec-side selection property: `r` occurs in `pairs`, every pair strictly
before that occurrence has strictly greater rank, and no pair anywhere has
strictly smaller rank than `r` (pairs absent from the merge table rank as
infinity). -/
def IsLeftmostMin (ranks : Str → Option Nat) (pairs : List Str) (r : Str) : Prop :=
  ∃ l1 l2, pairs = l1 ++ r :: l2 ∧
    (∀ q ∈ l1, rankLt (ranks r) (ranks q) = true) ∧
    (∀ q ∈ pairs, rankLt (ranks q) (ranks r) = false)

theorem jsReduceMin_leftmost (ranks : Str → Option Nat) :
    ∀ (rest : List Str) (b : Str),
      IsLeftmostMin ranks (b :: rest) (jsReduceMin ranks b rest) := by
  intro rest
  induction rest with
  | nil =>
    intro b
    simp only [jsReduceMin]
    refine ⟨[], [], rfl, ?_, ?_⟩
    · intro q hq; exact absurd hq (List.not_mem_nil q)
    · intro q hq
      rw [List.mem_singleton] at hq
      subst hq
      exact rankLt_irrefl _
  | cons p rest' ih =>
    intro b
    simp only [jsReduceMin]
    by_cases hpb : rankLt (ranks p) (ranks b) = true
    · rw [if_pos hpb]
      obtain ⟨l1', l2', hdec, hstrict, hmin⟩ := ih p
      refine ⟨b :: l1', l2', ?_, ?_, ?_⟩
      · rw [List.cons_append, ← hdec]
      · intro q hq
        rcases List.mem_cons.mp hq with hq | hq
        · subst hq
          have hpr : rankLt (ranks p) (ranks (jsReduceMin ranks p rest')) = false :=
            hmin p (List.mem_cons_self _ _)
          exact rankLt_of_nlt_of_lt hpr hpb
        · exact hstrict q hq
      · intro q hq
        rcases List.mem_cons.mp hq with hq | hq
        · subst hq
          by_contra hc
          rw [Bool.not_eq_false] at hc
          have hpr : rankLt (ranks p) (ranks (jsReduceMin ranks p rest')) = false :=
            hmin p (List.mem_cons_self _ _)
          have hbp : rankLt (ranks q) (ranks p) = true := rankLt_of_lt_of_nlt hc hpr
          have hcontra : rankLt (ranks p) (ranks p) = true := rankLt_trans hpb hbp
          rw [rankLt_irrefl] at hcontra
          exact Bool.false_ne_true hcontra
        · exact hmin q hq
    · rw [if_neg hpb]
      rw [Bool.not_eq_true] at hpb
      obtain ⟨l1', l2', hdec, hstrict, hmin⟩ := ih b
      cases l1' with
      | nil =>
        rw [List.nil_append] at hdec
        injection hdec with h1 h2
        refine ⟨[], p :: rest', ?_, ?_, ?_⟩
        · rw [List.nil_append, ← h1]
        · intro q hq; exact absurd hq (List.not_mem_nil q)
        · intro q hq
          rcases List.mem_cons.mp hq with hq | hq
          · subst hq; rw [← h1]; exact rankLt_irrefl _
          rcases List.mem_cons.mp hq with hq | hq
          · subst hq; rw [← h1]; exact hpb
          · exact hmin q (List.mem_cons_of_mem _ (h2 ▸ hq))
      | cons bb l1'' =>
        rw [List.cons_append] at hdec
        injection hdec with h1 h2
        subst h1
        refine ⟨b :: p :: l1'', l2', ?_, ?_, ?_⟩
        · simp only [List.cons_append]; rw [← h2]
        · intro q hq
          have hrb : rankLt (ranks (jsReduceMin ranks b rest')) (ranks b) = true :=
            hstrict b (List.mem_cons_self _ _)
          rcases List.mem_cons.mp hq with hq | hq
          · subst hq; exact hrb
          rcases List.mem_cons.mp hq with hq | hq
          · subst hq; exact rankLt_of_lt_of_nlt hrb hpb
          · exact hstrict q (List.mem_cons_of_mem _ hq)
        · intro q hq
          rcases List.mem_cons.mp hq with hq | hq
          · subst hq; exact hmin q (List.mem_cons_self _ _)
          rcases List.mem_cons.mp hq with hq | hq
          · subst hq
            by_contra hc
            rw [Bool.not_eq_false] at hc
            have hrb : rankLt (ranks (jsReduceMin ranks b rest')) (ranks b) = true :=
              hstrict b (List.mem_cons_self _ _)
            have hcontra : rankLt (ranks q) (ranks b) = true := rankLt_trans hc hrb
            rw [hpb] at hcontra
            exact Bool.false_ne_true hcontra
          · exact hmin q (List.mem_cons_of_mem _ hq)

theorem mem_of_isLeftmostMin {ranks : Str → Option Nat} {pairs : List Str}
    {r : Str} (h : IsLeftmostMin ranks pairs r) : r ∈ pairs := by
  obtain ⟨l1, l2, hdec, -, -⟩ := h
  rw [hdec]
  exact List.mem_append_right _ (List.mem_cons_self _ _)

/-! ### Every enumerated pair is a pair of adjacent word symbols -/

theorem mem_getPairsAux {pr : Str} :
    ∀ (rest : List Str) (prev : Str), pr ∈ getPairsAux prev rest →
      ∃ k a b, (prev :: rest).get? k = some a ∧
        (prev :: rest).get? (k + 1) = some b ∧ pr = a ++ [32] ++ b := by
  intro rest
  induction rest with
  | nil => intro prev h; exact absurd h (List.not_mem_nil pr)
  | cons c rest' ih =>
    intro prev h
    rw [getPairsAux, List.mem_cons] at h
    rcases h with h | h
    · exact ⟨0, prev, c, rfl, rfl, h⟩
    · obtain ⟨k, a, b, h1, h2, h3⟩ := ih c h
      exact ⟨k + 1, a, b, h1, h2, h3⟩

theorem mem_getPairs {word : List Str} {pr : Str} (h : pr ∈ getPairs word) :
    ∃ k a b, word.get? k = some a ∧ word.get? (k + 1) = some b ∧
      pr = a ++ [32] ++ b := by
  cases word with
  | nil => exact absurd h (List.not_mem_nil pr)
  | cons w0 rest => exact mem_getPairsAux rest w0 h

/-! ### The rewrite loop merges every non-overlapping left-to-right occurrence -/

theorem bpeMergeWord_of_idxOf_none {f s : Str} {w : List Str}
    (h : idxOf f w = none) : bpeMergeWord f s w = w := by
  rw [bpeMergeWord]
  split
  · rfl
  · rename_i j hj
    rw [h] at hj
    exact absurd hj (by simp)

theorem bpeMergeWord_of_idxOf_some {f s : Str} {w : List Str} {j : Nat}
    (h : idxOf f w = some j) :
    bpeMergeWord f s w =
      if w.get? (j + 1) = some s then
        w.take j ++ [f ++ s] ++ bpeMergeWord f s (w.drop (j + 2))
      else
        w.take j ++ [f] ++ bpeMergeWord f s (w.drop (j + 1)) := by
  rw [bpeMergeWord]
  split
  · rename_i hn
    rw [h] at hn
    exact absurd hn (by simp)
  · rename_i j' hj
    rw [h] at hj
    injection hj with hjj
    subst hjj
    rfl

theorem bpeMergeWord_nil (f s : Str) : bpeMergeWord f s [] = [] :=
  bpeMergeWord_of_idxOf_none (by simp [idxOf])

theorem bpeMergeWord_cons_ne {f x : Str} (s : Str) (hx : x ≠ f)
    (xs : List Str) : bpeMergeWord f s (x :: xs) = x :: bpeMergeWord f s xs := by
  cases hidx : idxOf f xs with
  | none =>
    have h1 : idxOf f (x :: xs) = none := by
      simp [idxOf, hx, hidx]
    rw [bpeMergeWord_of_idxOf_none h1, bpeMergeWord_of_idxOf_none hidx]
  | some j =>
    have h1 : idxOf f (x :: xs) = some (j + 1) := by
      simp [idxOf, hx, hidx]
    rw [bpeMergeWord_of_idxOf_some h1, bpeMergeWord_of_idxOf_some hidx]
    rw [List.get?_cons_succ, List.take_succ_cons, List.drop_succ_cons,
      List.drop_succ_cons]
    by_cases hc : xs.get? (j + 1) = some s
    · rw [if_pos hc, if_pos hc]
      simp
    · rw [if_neg hc, if_neg hc]
      simp

theorem bpeMergeWord_head_merge (f s : Str) (rest : List Str) :
    bpeMergeWord f s (f :: s :: rest) = (f ++ s) :: bpeMergeWord f s rest := by
  have h1 : idxOf f (f :: s :: rest) = some 0 := by simp [idxOf]
  rw [bpeMergeWord_of_idxOf_some h1]
  rw [if_pos (by rw [List.get?_cons_succ]; rfl)]
  simp

theorem bpeMergeWord_head_nomerge {f s y : Str} (hy : y ≠ s)
    (rest : List Str) :
    bpeMergeWord f s (f :: y :: rest) = f :: bpeMergeWord f s (y :: rest) := by
  have h1 : idxOf f (f :: y :: rest) = some 0 := by simp [idxOf]
  rw [bpeMergeWord_of_idxOf_some h1]
  rw [if_neg (by rw [List.get?_cons_succ]; simp [hy])]
  simp

theorem bpeMergeWord_single (f s : Str) : bpeMergeWord f s [f] = [f] := by
  have h1 : idxOf f [f] = some 0 := by simp [idxOf]
  rw [bpeMergeWord_of_idxOf_some h1]
  rw [if_neg (by simp)]
  simp [bpeMergeWord_nil]

theorem specMergePairs_nil (f s : Str) : specMergePairs f s [] = [] := by
  rw [specMergePairs]

theorem specMergePairs_single (f s x : Str) : specMergePairs f s [x] = [x] := by
  rw [specMergePairs]

theorem specMergePairs_cons2 (f s x y : Str) (rest : List Str) :
    specMergePairs f s (x :: y :: rest) =
      if x = f ∧ y = s then (f ++ s) :: specMergePairs f s rest
      else x :: specMergePairs f s (y :: rest) := by
  rw [specMergePairs]

theorem specMergePairs_cons_ne {f x : Str} (s : Str) (hx : x ≠ f)
    (xs : List Str) :
    specMergePairs f s (x :: xs) = x :: specMergePairs f s xs := by
  cases xs with
  | nil => rw [specMergePairs_single, specMergePairs_nil]
  | cons y rest =>
    rw [specMergePairs_cons2, if_neg (by intro hc; exact hx hc.1)]

/-- The source's rewrite loop computes exactly the spec's rewrite: every
non-overlapping, left-to-right adjacent occurrence of the pair is merged. -/
theorem bpeMergeWord_eq_specMergePairs (f s : Str) (w : List Str) :
    bpeMergeWord f s w = specMergePairs f s w := by
  suffices H : ∀ (n : Nat) (w : List Str), w.length ≤ n →
      bpeMergeWord f s w = specMergePairs f s w from H w.length w le_rfl
  intro n
  induction n with
  | zero =>
    intro w hw
    rw [Nat.le_zero, List.length_eq_zero] at hw
    subst hw
    rw [bpeMergeWord_nil, specMergePairs_nil]
  | succ n ih =>
    intro w hw
    cases w with
    | nil => rw [bpeMergeWord_nil, specMergePairs_nil]
    | cons x xs =>
      by_cases hx : x = f
      · subst hx
        cases xs with
        | nil => rw [bpeMergeWord_single, specMergePairs_single]
        | cons y rest =>
          by_cases hy : y = s
          · subst hy
            rw [bpeMergeWord_head_merge, specMergePairs_cons2,
              if_pos ⟨rfl, rfl⟩]
            rw [ih rest (by simp at hw; omega)]
          · rw [bpeMergeWord_head_nomerge hy, specMergePairs_cons2,
              if_neg (by intro hc; exact hy hc.2)]
            rw [ih (y :: rest) (by simp at hw ⊢; omega)]
      · rw [bpeMergeWord_cons_ne s hx, specMergePairs_cons_ne s hx,
          ih xs (by simp at hw; omega)]

/-! ### A merge strictly shortens the word when the pair occurs adjacently -/

theorem specMergePairs_length_le (f s : Str) : ∀ (w : List Str),
    (specMergePairs f s w).length ≤ w.length := by
  suffices H : ∀ (n : Nat) (w : List Str), w.length ≤ n →
      (specMergePairs f s w).length ≤ w.length from
    fun w => H w.length w le_rfl
  intro n
  induction n with
  | zero =>
    intro w hw
    rw [Nat.le_zero, List.length_eq_zero] at hw
    subst hw
    rw [specMergePairs_nil]
  | succ n ih =>
    intro w hw
    cases w with
    | nil => rw [specMergePairs_nil]
    | cons x xs =>
      cases xs with
      | nil => rw [specMergePairs_single]
      | cons y rest =>
        rw [specMergePairs_cons2]
        by_cases hc : x = f ∧ y = s
        · rw [if_pos hc]
          have := ih rest (by simp at hw; omega)
          simp only [List.length_cons]
          omega
        · rw [if_neg hc]
          have := ih (y :: rest) (by simp at hw ⊢; omega)
          simp only [List.length_cons] at *
          omega

theorem specMergePairs_length_lt (f s : Str) : ∀ (w : List Str),
    (∃ k, w.get? k = some f ∧ w.get? (k + 1) = some s) →
    (specMergePairs f s w).length < w.length := by
  suffices H : ∀ (n : Nat) (w : List Str), w.length ≤ n →
      (∃ k, w.get? k = some f ∧ w.get? (k + 1) = some s) →
      (specMergePairs f s w).length < w.length from
    fun w => H w.length w le_rfl
  intro n
  induction n with
  | zero =>
    intro w hw ⟨k, hk, _⟩
    rw [Nat.le_zero, List.length_eq_zero] at hw
    subst hw
    simp at hk
  | succ n ih =>
    intro w hw ⟨k, hk1, hk2⟩
    cases w with
    | nil => simp at hk1
    | cons x xs =>
      cases xs with
      | nil =>
        cases k with
        | zero => simp at hk2
        | succ k' => simp at hk1
      | cons y rest =>
        rw [specMergePairs_cons2]
        by_cases hc : x = f ∧ y = s
        · rw [if_pos hc]
          have := specMergePairs_length_le f s rest
          simp only [List.length_cons]
          omega
        · rw [if_neg hc]
          have hk' : ∃ k, (y :: rest).get? k = some f ∧
              (y :: rest).get? (k + 1) = some s := by
            cases k with
            | zero =>
              rw [List.get?_cons_zero] at hk1
              rw [List.get?_cons_succ, List.get?_cons_zero] at hk2
              injection hk1 with hk1
              injection hk2 with hk2
              exact absurd ⟨hk1, hk2⟩ hc
            | succ k' =>
              rw [List.get?_cons_succ] at hk1 hk2
              exact ⟨k', hk1, hk2⟩
          have := ih (y :: rest) (by simp at hw ⊢; omega) hk'
          simp only [List.length_cons] at *
          omega

theorem bpeMergeWord_length_lt {f s : Str} {w : List Str}
    (h : ∃ k, w.get? k = some f ∧ w.get? (k + 1) = some s) :
    (bpeMergeWord f s w).length < w.length := by
  rw [bpeMergeWord_eq_specMergePairs]
  exact specMergePairs_length_lt f s w h

/-! ### `split(" ")` recovers the two symbols of a pair string -/

theorem splitOnSpaces_no_space {b : Str} (hb : 32 ∉ b) :
    splitOnSpaces b = [b] := by
  induction b with
  | nil => rfl
  | cons c rest ih =>
    have hc : c ≠ 32 := fun h => hb (h ▸ List.mem_cons_self c rest)
    rw [splitOnSpaces, if_neg hc,
      ih (fun h => hb (List.mem_cons_of_mem c h))]

theorem splitOnSpaces_pair {a b : Str} (ha : 32 ∉ a) (hb : 32 ∉ b) :
    splitOnSpaces (a ++ [32] ++ b) = [a, b] := by
  induction a with
  | nil =>
    simp only [List.nil_append, List.cons_append]
    rw [splitOnSpaces, if_pos rfl, splitOnSpaces_no_space hb]
  | cons c a' ih =>
    have hc : c ≠ 32 := fun h => ha (h ▸ List.mem_cons_self c a')
    simp only [List.cons_append]
    rw [splitOnSpaces, if_neg hc]
    have ih' := ih (fun h => ha (List.mem_cons_of_mem c h))
    simp only [List.cons_append] at ih'
    rw [ih']

theorem splitSpace_pair {a b : Str} (ha : 32 ∉ a) (hb : 32 ∉ b) :
    splitSpace (a ++ [32] ++ b) = (a, b) := by
  rw [splitSpace, splitOnSpaces_pair ha hb]
  rfl

/-! ### Unfolding equations for the merge loop -/

theorem bpeLoop_no_pairs {ranks : Str → Option Nat} {word : List Str}
    (h : getPairs word = []) : bpeLoop ranks word = word := by
  rw [bpeLoop, h]

theorem bpeLoop_short {ranks : Str → Option Nat} {word : List Str}
    (h : word.length ≤ 1) : bpeLoop ranks word = word := by
  apply bpeLoop_no_pairs
  cases word with
  | nil => rfl
  | cons x xs =>
    cases xs with
    | nil => rfl
    | cons y ys => simp at h

theorem bpeLoop_rank_none {ranks : Str → Option Nat} {word : List Str}
    {b0 : Str} {brest : List Str} (hp : getPairs word = b0 :: brest)
    (hr : ranks (jsReduceMin ranks b0 brest) = none) :
    bpeLoop ranks word = word := by
  rw [bpeLoop, hp]
  dsimp only
  rw [if_pos hr]

theorem bpeLoop_rank_some {ranks : Str → Option Nat} {word : List Str}
    {b0 f s : Str} {brest : List Str} (hp : getPairs word = b0 :: brest)
    (hfs : splitSpace (jsReduceMin ranks b0 brest) = (f, s))
    (hr : ranks (jsReduceMin ranks b0 brest) ≠ none)
    (hlt : (bpeMergeWord f s word).length < word.length) :
    bpeLoop ranks word =
      if (bpeMergeWord f s word).length = 1 then bpeMergeWord f s word
      else bpeLoop ranks (bpeMergeWord f s word) := by
  rw [bpeLoop, hp]
  dsimp only
  rw [if_neg hr, hfs]
  dsimp only
  by_cases h1 : (bpeMergeWord f s word).length = 1
  · rw [if_pos h1, if_pos h1]
  · rw [if_neg h1, if_neg h1, dif_pos hlt]

/-! ### C1 and C9 -/

/-- C1: in every iteration of the BPE merge loop, the `reduce` selects the
leftmost-enumerated pair of minimal merge rank among all adjacent symbol
pairs of the current sequence (pairs absent from the merge table rank as
infinity); if the selected pair is absent from the merge table the loop
stops without rewriting, and otherwise the sequence is rewritten by merging
every non-overlapping, left-to-right adjacent occurrence of exactly that
pair into the single combined symbol, after which the loop continues (or
stops at length 1).  The hypothesis `hsf` records that word symbols never
contain a space, which holds for every word `bpe` builds. -/
theorem bpe_iteration_selects_leftmost_min_and_merges
    (ranks : Str → Option Nat) (word : List Str)
    (h2 : 2 ≤ word.length) (hsf : ∀ sy ∈ word, 32 ∉ sy) :
    ∃ b0 brest a b k,
      getPairs word = b0 :: brest ∧
      jsReduceMin ranks b0 brest = a ++ [32] ++ b ∧
      IsLeftmostMin ranks (b0 :: brest) (a ++ [32] ++ b) ∧
      word.get? k = some a ∧ word.get? (k + 1) = some b ∧
      (ranks (a ++ [32] ++ b) = none → bpeLoop ranks word = word) ∧
      (ranks (a ++ [32] ++ b) ≠ none →
        bpeLoop ranks word =
          if (specMergePairs a b word).length = 1 then specMergePairs a b word
          else bpeLoop ranks (specMergePairs a b word)) := by
  obtain ⟨w0, w1, rest, rfl⟩ : ∃ w0 w1 rest, word = w0 :: w1 :: rest := by
    cases word with
    | nil => simp at h2
    | cons w0 tail =>
      cases tail with
      | nil => simp at h2
      | cons w1 rest => exact ⟨w0, w1, rest, rfl⟩
  have hp : getPairs (w0 :: w1 :: rest) =
      (w0 ++ [32] ++ w1) :: getPairsAux w1 rest := rfl
  have hlm := jsReduceMin_leftmost ranks (getPairsAux w1 rest) (w0 ++ [32] ++ w1)
  obtain ⟨k, a, b, hk1, hk2, h3⟩ := mem_getPairs (hp ▸ mem_of_isLeftmostMin hlm)
  have ha : (32 : Nat) ∉ a := hsf a (List.get?_mem hk1)
  have hb : (32 : Nat) ∉ b := hsf b (List.get?_mem hk2)
  refine ⟨w0 ++ [32] ++ w1, getPairsAux w1 rest, a, b, k, hp, h3, h3 ▸ hlm,
    hk1, hk2, ?_, ?_⟩
  · intro hrnone
    exact bpeLoop_rank_none hp (h3 ▸ hrnone)
  · intro hrsome
    have hlt : (bpeMergeWord a b (w0 :: w1 :: rest)).length <
        (w0 :: w1 :: rest).length := bpeMergeWord_length_lt ⟨k, hk1, hk2⟩
    have hfs : splitSpace (jsReduceMin ranks (w0 ++ [32] ++ w1)
        (getPairsAux w1 rest)) = (a, b) := by
      rw [h3]; exact splitSpace_pair ha hb
    rw [bpeLoop_rank_some hp hfs (h3 ▸ hrsome) hlt,
      bpeMergeWord_eq_specMergePairs]

theorem bpe_iteration_witness :
    ∃ b0 brest a b k,
      getPairs [[97], [98], [99]] = b0 :: brest ∧
      jsReduceMin (fun p => if p = [97, 32, 98] then some 0 else none)
        b0 brest = a ++ [32] ++ b ∧
      IsLeftmostMin (fun p => if p = [97, 32, 98] then some 0 else none)
        (b0 :: brest) (a ++ [32] ++ b) ∧
      ([[97], [98], [99]] : List Str).get? k = some a ∧
      ([[97], [98], [99]] : List Str).get? (k + 1) = some b ∧
      ((fun p => if p = [97, 32, 98] then some 0 else none)
          (a ++ [32] ++ b) = none →
        bpeLoop (fun p => if p = [97, 32, 98] then some 0 else none)
          [[97], [98], [99]] = [[97], [98], [99]]) ∧
      ((fun p => if p = [97, 32, 98] then some 0 else none)
          (a ++ [32] ++ b) ≠ none →
        bpeLoop (fun p => if p = [97, 32, 98] then some 0 else none)
          [[97], [98], [99]] =
          if (specMergePairs a b [[97], [98], [99]]).length = 1 then
            specMergePairs a b [[97], [98], [99]]
          else bpeLoop (fun p => if p = [97, 32, 98] then some 0 else none)
            (specMergePairs a b [[97], [98], [99]])) :=
  bpe_iteration_selects_leftmost_min_and_merges
    (fun p => if p = [97, 32, 98] then some 0 else none)
    [[97], [98], [99]] (by decide) (by decide)

/-- C9: the BPE merge loop terminates.  Whenever the selected pair occurs
adjacently in the word (which it always does, being drawn from `getPairs`),
the rewrite strictly decreases the word's length; the loop exits when the
word has length at most 1 (no pairs) or when the best-ranked pair is absent
from the merge table.  `bpeLoop` (hence `bpe`) is a total function. -/
theorem bpe_merge_strictly_decreases (ranks : Str → Option Nat)
    (f s : Str) (word : List Str)
    (hadj : ∃ k, word.get? k = some f ∧ word.get? (k + 1) = some s) :
    (bpeMergeWord f s word).length < word.length ∧
    (∀ w : List Str, w.length ≤ 1 → bpeLoop ranks w = w) ∧
    (∀ (w : List Str) (b0 : Str) (brest : List Str),
      getPairs w = b0 :: brest → ranks (jsReduceMin ranks b0 brest) = none →
      bpeLoop ranks w = w) :=
  ⟨bpeMergeWord_length_lt hadj,
   fun _ h => bpeLoop_short h,
   fun _ _ _ hp hr => bpeLoop_rank_none hp hr⟩

theorem bpe_merge_strictly_decreases_witness :
    (bpeMergeWord [97] [98] [[97], [98]]).length <
      ([[97], [98]] : List Str).length ∧
    (∀ w : List Str, w.length ≤ 1 →
      bpeLoop (fun _ => none) w = w) ∧
    (∀ (w : List Str) (b0 : Str) (brest : List Str),
      getPairs w = b0 :: brest →
      (fun _ => (none : Option Nat)) (jsReduceMin (fun _ => none) b0 brest) =
        none →
      bpeLoop (fun _ => none) w = w) :=
  bpe_merge_strictly_decreases (fun _ => none) [97] [98] [[97], [98]]
    ⟨0, rfl, rfl⟩

/-! ### Vocabulary construction (`createVocab`, `createEncoderDecoder`) -/

/-- The token `"<start_of_text>"`. -/
def sotSym : Str := [60, 115, 116, 97, 114, 116, 95, 111, 102, 95, 116, 101, 120, 116, 62]

/-- The token `"<end_of_text>"`. -/
def eotSym : Str := [60, 101, 110, 100, 95, 111, 102, 95, 116, 101, 120, 116, 62]

/-- The list `byteEncoder.values()` in insertion order: the single-character base
symbols. -/
def byteBaseSyms : List Str := encPairs.map (fun p => [p.2])

/-- The function `createVocab`: push the byte-encoded base symbols, re-push them suffixed
with the word-boundary marker, then push one symbol per merge line with all
spaces removed (`merge.replace(/ /g, "")`). -/
def createVocab (merges : List Str) : List Str :=
  let vocab := byteBaseSyms
  let vocab2 := vocab ++ vocab.map (fun v => v ++ eow)
  vocab2 ++ merges.map (fun m => m.filter (fun c => c != 32))

/-- The function `getSpecialTokens` followed by the constructor's `vocab.push(...)`:
start-of-text, end-of-text, then any additional special tokens. -/
def fullVocab (merges additional : List Str) : List Str :=
  createVocab merges ++ ([sotSym, eotSym] ++ additional)

/-- The function `createEncoderDecoder`'s encoder: a `Map` built from `[token, index]`
entries.  For duplicate tokens `Map.set` keeps the last index, hence lookup
reads the reversed enumeration. -/
def encoderGet (vocab : List Str) (s : Str) : Option Nat :=
  alookup s ((vocab.enum.map (fun p => (p.2, p.1))).reverse)

/-- The function `createEncoderDecoder`'s decoder: a `Map` from index to token. -/
def decoderGet (vocab : List Str) (i : Nat) : Option Str :=
  alookup i vocab.enum.reverse

theorem enum_map_snd (l : List Str) : l.enum.map Prod.snd = l :=
  List.enumFrom_map_snd 0 l

theorem encoderGet_get {vocab : List Str} (hnd : vocab.Nodup)
    (i : Nat) (h : i < vocab.length) :
    encoderGet vocab (vocab.get ⟨i, h⟩) = some i := by
  rw [encoderGet]
  apply alookup_of_mem_nodup
  · have hkeys : (((vocab.enum.map (fun p => (p.2, p.1))).reverse).map
        Prod.fst) = vocab.reverse := by
      rw [List.map_reverse, List.map_map]
      have hcomp : (Prod.fst ∘ fun p : Nat × Str => (p.2, p.1)) = Prod.snd := rfl
      rw [hcomp, enum_map_snd]
    rw [hkeys, List.nodup_reverse]
    exact hnd
  · rw [List.mem_reverse, List.mem_map]
    refine ⟨(i, vocab.get ⟨i, h⟩), ?_, rfl⟩
    rw [List.mk_mem_enum_iff_get?]
    exact List.get?_eq_get h

theorem encoderGet_some {vocab : List Str} {s : Str} {n : Nat}
    (h : encoderGet vocab s = some n) :
    n < vocab.length ∧ vocab.get? n = some s := by
  have hmem := alookup_mem h
  rw [List.mem_reverse, List.mem_map] at hmem
  obtain ⟨⟨j, t⟩, hj, heq⟩ := hmem
  have h1 : t = s := congrArg Prod.fst heq
  have h2 : j = n := congrArg Prod.snd heq
  subst h1; subst h2
  rw [List.mk_mem_enum_iff_get?] at hj
  refine ⟨?_, hj⟩
  exact (List.get?_eq_some.mp hj).1

/-- C8: the vocabulary is composed, in exactly this order, of the 256
byte-encoded base symbols, those same symbols suffixed with the word-boundary
marker `</w>`, one symbol per merge rule (the merge line with its spaces
removed), then the special tokens (start-of-text, end-of-text, any
additional); the encoder assigns each symbol its position, so when the
symbols are pairwise distinct the assigned ids are exactly `0..N-1`:
the `i`-th symbol gets id `i`, and every assigned id is below `N` and
decodes back (by position) to its symbol. -/
theorem vocab_composition_and_ids (merges additional : List Str)
    (hnd : (fullVocab merges additional).Nodup) :
    fullVocab merges additional =
      byteBaseSyms ++ byteBaseSyms.map (fun v => v ++ eow) ++
        merges.map (fun m => m.filter (fun c => c != 32)) ++
        ([sotSym, eotSym] ++ additional) ∧
    byteBaseSyms.length = 256 ∧
    (∀ (i : Nat) (h : i < (fullVocab merges additional).length),
      encoderGet (fullVocab merges additional)
        ((fullVocab merges additional).get ⟨i, h⟩) = some i) ∧
    (∀ (s : Str) (n : Nat),
      encoderGet (fullVocab merges additional) s = some n →
      n < (fullVocab merges additional).length ∧
      (fullVocab merges additional).get? n = some s) := by
  refine ⟨rfl, ?_, fun i h => encoderGet_get hnd i h,
    fun s n h => encoderGet_some h⟩
  have h256 : encPairs.length = 256 := by decide
  rw [byteBaseSyms, List.length_map, h256]

/-! Nodup of the concrete no-merges vocabulary, shown structurally (the base
symbols are pairwise distinct single characters; the four segments have
symbols of pairwise different lengths: 1, 5, 15 and 13). -/

theorem byteBaseSyms_nodup : byteBaseSyms.Nodup := by
  obtain ⟨-, hnd2, -⟩ := encPairs_facts
  have hshape : byteBaseSyms = (encPairs.map Prod.snd).map (fun v => [v]) := by
    rw [byteBaseSyms, List.map_map]
    rfl
  rw [hshape]
  refine List.Nodup.map ?_ hnd2
  intro a b hab
  injection hab

theorem byteBaseSyms_lengths : ∀ a ∈ byteBaseSyms, a.length = 1 := by
  intro a ha
  obtain ⟨p, -, rfl⟩ := List.mem_map.mp ha
  rfl

theorem fullVocab_nil_nodup : (fullVocab [] []).Nodup := by
  have hA := byteBaseSyms_nodup
  have hB : (byteBaseSyms.map (fun v => v ++ eow)).Nodup := by
    refine List.Nodup.map ?_ hA
    intro a b hab
    exact List.append_cancel_right hab
  have hlenB : ∀ a ∈ byteBaseSyms.map (fun v => v ++ eow), a.length = 5 := by
    intro a ha
    obtain ⟨v, hv, rfl⟩ := List.mem_map.mp ha
    rw [List.length_append, byteBaseSyms_lengths v hv]
    rfl
  have hshape : fullVocab [] [] =
      byteBaseSyms ++ (byteBaseSyms.map (fun v => v ++ eow) ++
        [sotSym, eotSym]) := by
    simp [fullVocab, createVocab]
  rw [hshape, List.nodup_append]
  refine ⟨hA, ?_, ?_⟩
  · rw [List.nodup_append]
    refine ⟨hB, by decide, ?_⟩
    intro a haB haS
    have hl := hlenB a haB
    rcases List.mem_cons.mp haS with h | h
    · rw [h] at hl; simp [sotSym] at hl
    rcases List.mem_cons.mp h with h | h
    · rw [h] at hl; simp [eotSym] at hl
    · exact absurd h (List.not_mem_nil a)
  · intro a haA haBS
    have hl := byteBaseSyms_lengths a haA
    rcases List.mem_append.mp haBS with h | h
    · have := hlenB a h; omega
    rcases List.mem_cons.mp h with h | h
    · rw [h] at hl; simp [sotSym] at hl
    rcases List.mem_cons.mp h with h | h
    · rw [h] at hl; simp [eotSym] at hl
    · exact absurd h (List.not_mem_nil a)

theorem vocab_composition_and_ids_witness :
    fullVocab [] [] =
      byteBaseSyms ++ byteBaseSyms.map (fun v => v ++ eow) ++
        ([] : List Str).map (fun m => m.filter (fun c => c != 32)) ++
        ([sotSym, eotSym] ++ []) ∧
    byteBaseSyms.length = 256 ∧
    (∀ (i : Nat) (h : i < (fullVocab [] []).length),
      encoderGet (fullVocab [] [])
        ((fullVocab [] []).get ⟨i, h⟩) = some i) ∧
    (∀ (s : Str) (n : Nat),
      encoderGet (fullVocab [] []) s = some n →
      n < (fullVocab [] []).length ∧
      (fullVocab [] []).get? n = some s) :=
  vocab_composition_and_ids [] [] fullVocab_nil_nodup

/-! ### `encode` -/

/-- The cache pre-seeded by the constructor: each special token maps to
itself. -/
def cacheOf (specials : List Str) : Str → Option Str :=
  fun t => alookup t (specials.map (fun s => (s, s)))

/-- The map `bpeRanks`: merge line `i` (a space-joined symbol pair) has rank `i`
(`Map` keeps the last index for a duplicated line, hence the reverse). -/
def ranksOf (merges : List Str) : Str → Option Nat :=
  fun p => alookup p ((merges.enum.map (fun q => (q.2, q.1))).reverse)

/-- The inner loop of `encode` over the BPE output pieces:
`const id = this.encoder.get(bpeToken); if (id) bpeTokens.push(id)`. -/
def pushIds (encoder : Str → Option Nat) (acc : List Nat)
    (parts : List Str) : List Nat :=
  parts.foldl
    (fun a p =>
      if jsTruthy (encoder p) then a ++ [(encoder p).getD 0] else a)
    acc

/-- The function `encode`, starting from the chunk list produced by the normalizer and
the pattern segmenter (both upstream of every claim here, so the theorems
quantify over all possible chunk lists).  Each chunk's characters are
byte-encoded individually (`Byte ... not found` is a thrown error, modelled
as `none`), run through `bpe`, split on spaces, and each piece's id pushed
when truthy. -/
def encode (cache : Str → Option Str) (ranks : Str → Option Nat)
    (encoder : Str → Option Nat) (byteEnc : Nat → Option Nat)
    (chunks : List Str) : Option (List Nat) :=
  chunks.foldlM
    (fun acc token =>
      (token.mapM byteEnc).map (fun encTok =>
        pushIds encoder acc (splitOnSpaces (bpe cache ranks encTok))))
    []

/-! ### `decode` -/

/-- JavaScript `pat` being an initial segment of `s`. -/
def startsWith (pat s : Str) : Bool := s.take pat.length = pat

/-- JavaScript `s.replace(pat, repl)` with a string pattern: replaces only
the first occurrence. -/
def replaceFirst (pat repl : Str) : Str → Str
  | [] => if pat = [] then repl else []
  | c :: rest =>
      if startsWith pat (c :: rest) then repl ++ (c :: rest).drop pat.length
      else c :: replaceFirst pat repl rest

/-- A unicode code point as UTF-16 code units (surrogate pair above
`0xFFFF`). -/
def utf16Units (cp : Nat) : Str :=
  if cp < 0x10000 then [cp]
  else [0xD800 + (cp - 0x10000) / 0x400, 0xDC00 + (cp - 0x10000) % 0x400]

/-- One step of WHATWG UTF-8 decoding with replacement, as performed by
`new TextDecoder("utf-8", { fatal: false })`, for a byte list starting at
`b`: the UTF-16 code units emitted and how many bytes beyond `b` are
consumed (an invalid byte is reprocessed as a fresh start, i.e. not
consumed). -/
def utf8Step (b : Nat) (rest : List Nat) : Str × Nat :=
  if b ≤ 0x7F then ([b], 0)
  else if 0xC2 ≤ b ∧ b ≤ 0xDF then
    match rest with
    | [] => ([0xFFFD], 0)
    | c1 :: _ =>
      if 0x80 ≤ c1 ∧ c1 ≤ 0xBF then
        (utf16Units ((b - 0xC0) * 0x40 + (c1 - 0x80)), 1)
      else ([0xFFFD], 0)
  else if 0xE0 ≤ b ∧ b ≤ 0xEF then
    match rest with
    | [] => ([0xFFFD], 0)
    | c1 :: r1 =>
      if (if b = 0xE0 then 0xA0 else 0x80) ≤ c1 ∧
          c1 ≤ (if b = 0xED then 0x9F else 0xBF) then
        match r1 with
        | [] => ([0xFFFD], 1)
        | c2 :: _ =>
          if 0x80 ≤ c2 ∧ c2 ≤ 0xBF then
            (utf16Units ((b - 0xE0) * 0x1000 + (c1 - 0x80) * 0x40 +
              (c2 - 0x80)), 2)
          else ([0xFFFD], 1)
      else ([0xFFFD], 0)
  else if 0xF0 ≤ b ∧ b ≤ 0xF4 then
    match rest with
    | [] => ([0xFFFD], 0)
    | c1 :: r1 =>
      if (if b = 0xF0 then 0x90 else 0x80) ≤ c1 ∧
          c1 ≤ (if b = 0xF4 then 0x8F else 0xBF) then
        match r1 with
        | [] => ([0xFFFD], 1)
        | c2 :: r2 =>
          if 0x80 ≤ c2 ∧ c2 ≤ 0xBF then
            match r2 with
            | [] => ([0xFFFD], 2)
            | c3 :: _ =>
              if 0x80 ≤ c3 ∧ c3 ≤ 0xBF then
                (utf16Units ((b - 0xF0) * 0x40000 + (c1 - 0x80) * 0x1000 +
                  (c2 - 0x80) * 0x40 + (c3 - 0x80)), 3)
              else ([0xFFFD], 2)
          else ([0xFFFD], 1)
      else ([0xFFFD], 0)
  else ([0xFFFD], 0)

/-- WHATWG UTF-8 decoding with replacement: apply `utf8Step` until the
bytes run out. -/
def utf8Decode : List Nat → Str
  | [] => []
  | b :: rest =>
    (utf8Step b rest).1 ++ utf8Decode (rest.drop (utf8Step b rest).2)
termination_by l => l.length
decreasing_by simp [List.length_drop]; omega

/-- The function `decode`: look up each id's symbol (falsy — missing or empty — results
dropped), concatenate, map each character back through the byte decoder
(falsy — missing or zero — bytes dropped), decode the byte sequence as
UTF-8 with replacement, then `.replace("</w>", " ")`, which in JavaScript
replaces only the first occurrence. -/
def decode (decoder : Nat → Option Str) (byteDec : Nat → Option Nat)
    (tokens : List Nat) : Str :=
  let text := tokens.foldl
    (fun acc t =>
      if jsTruthyStr (decoder t) then acc ++ (decoder t).getD [] else acc) []
  let byteArray := text.foldl
    (fun acc c =>
      if jsTruthy (byteDec c) then acc ++ [(byteDec c).getD 0] else acc) []
  replaceFirst eow [32] (utf8Decode byteArray)

/-! ### `tokenize` -/

/-- The per-row token list of `tokenize`: wrap the encoded ids with the
start- and end-of-text ids; if longer than the context length `L`, truncate
to the first `L` tokens and force the last slot to the end-of-text id. -/
def wrapTrunc (L sot eot : Nat) (enc : List Nat) : List Nat :=
  let tokens := sot :: (enc ++ [eot])
  if L < tokens.length then (tokens.take L).set (L - 1) eot else tokens

/-- One row of `tokenize`'s output buffer: the wrapped (possibly truncated)
tokens written into a pre-zeroed row of length `L`. -/
def tokenizeRow (L sot eot : Nat) (enc : List Nat) : List Nat :=
  (List.range L).map (fun j => (wrapTrunc L sot eot enc).getD j 0)

/-- The function `tokenize` on the already-encoded inputs (a single string input is the
one-element batch): the flat int32 buffer of shape
`[texts.length, contextLength]` is modelled row-major as its list of rows. -/
def tokenize (L sot eot : Nat) (encs : List (List Nat)) : List (List Nat) :=
  encs.map (fun e => tokenizeRow L sot eot e)

/-- The function `simpleMaskTokenize`'s row: when the encoded ids exceed `L - 2`, keep a
contiguous window of `L - 2` of them starting at `start`, where
`start = Math.floor(Math.random() * (numTokens - numKeep + 1))`; then wrap
with the special ids and write into a pre-zeroed row of length `L`. -/
def simpleMaskRow (L sot eot start : Nat) (enc : List Nat) : List Nat :=
  let tokens := if L - 2 < enc.length then (enc.drop start).take (L - 2) else enc
  let tokens2 := sot :: (tokens ++ [eot])
  (List.range L).map (fun j => tokens2.getD j 0)

/-! ### Helper lemmas for `decode` and `tokenize` -/

theorem utf8Decode_ascii : ∀ l : List Nat, (∀ b ∈ l, b ≤ 0x7F) →
    utf8Decode l = l := by
  intro l
  induction l with
  | nil => intro _; rw [utf8Decode]
  | cons b rest ih =>
    intro h
    have hb : b ≤ 0x7F := h b (List.mem_cons_self _ _)
    have hstep : utf8Step b rest = ([b], 0) := by
      rw [utf8Step.eq_def, if_pos hb]
    rw [utf8Decode, hstep]
    simp only [List.drop_zero]
    rw [ih (fun c hc => h c (List.mem_cons_of_mem _ hc))]
    rfl

theorem tokenizeRow_length (L sot eot : Nat) (e : List Nat) :
    (tokenizeRow L sot eot e).length = L := by
  simp [tokenizeRow]

theorem tokenizeRow_get? {L : Nat} (sot eot : Nat) (e : List Nat)
    {j : Nat} (hj : j < L) :
    (tokenizeRow L sot eot e).get? j =
      some ((wrapTrunc L sot eot e).getD j 0) := by
  rw [tokenizeRow, List.get?_map, List.get?_eq_getElem?,
    List.getElem?_range hj]
  rfl

theorem wrapTrunc_length (L sot eot : Nat) (e : List Nat) :
    (wrapTrunc L sot eot e).length = min (e.length + 2) L := by
  rw [wrapTrunc]
  by_cases hc : L < (sot :: (e ++ [eot])).length
  · rw [if_pos hc]
    simp only [List.length_set, List.length_take, List.length_cons,
      List.length_append, List.length_nil] at *
    omega
  · rw [if_neg hc]
    simp only [List.length_cons, List.length_append,
      List.length_nil] at *
    omega

theorem wrapTrunc_getD_zero {L : Nat} (sot eot : Nat) (e : List Nat)
    (hL : 2 ≤ L) : (wrapTrunc L sot eot e).getD 0 0 = sot := by
  rw [wrapTrunc]
  by_cases hc : L < (sot :: (e ++ [eot])).length
  · rw [if_pos hc]
    rw [List.getD_eq_get?, List.get?_eq_getElem?, List.getElem?_set_ne
      (by omega : L - 1 ≠ 0)]
    rw [← List.get?_eq_getElem?, List.get?_take (by omega : 0 < L)]
    rfl
  · rw [if_neg hc]
    rfl

theorem wrapTrunc_mem {L sot eot : Nat} {e : List Nat} {v : Nat}
    (h : v ∈ wrapTrunc L sot eot e) : v = sot ∨ v ∈ e ∨ v = eot := by
  rw [wrapTrunc] at h
  by_cases hc : L < (sot :: (e ++ [eot])).length
  · rw [if_pos hc] at h
    rcases List.mem_or_eq_of_mem_set h with h | h
    · have h2 := List.take_subset L _ h
      rcases List.mem_cons.mp h2 with h2 | h2
      · exact Or.inl h2
      rcases List.mem_append.mp h2 with h2 | h2
      · exact Or.inr (Or.inl h2)
      · exact Or.inr (Or.inr (List.mem_singleton.mp h2))
    · exact Or.inr (Or.inr h)
  · rw [if_neg hc] at h
    rcases List.mem_cons.mp h with h | h
    · exact Or.inl h
    rcases List.mem_append.mp h with h | h
    · exact Or.inr (Or.inl h)
    · exact Or.inr (Or.inr (List.mem_singleton.mp h))

theorem range_map_getD {l : List Nat} {L : Nat} (h : l.length = L) :
    (List.range L).map (fun j => l.getD j 0) = l := by
  apply List.ext_get?
  intro n
  by_cases hn : n < L
  · rw [List.get?_map, List.get?_eq_getElem?, List.getElem?_range hn]
    simp only [Option.map_some']
    rw [List.get?_eq_get (show n < l.length by omega)]
    rw [List.getD_eq_get?, List.get?_eq_get (show n < l.length by omega)]
    rfl
  · rw [List.get?_eq_none.mpr
      (by simp only [List.length_map, List.length_range]; omega),
      List.get?_eq_none.mpr (by omega)]

/-! ### C6 and C7: shape, wrapping, padding and truncation of `tokenize` -/

/-- C6: for every batch of inputs (a single string being the one-element
batch), `tokenize` returns a buffer of shape
`[number of inputs, contextLength]`: one row per input, each of length `L`;
row `i` is built from input `i`'s encoded ids alone (no cross-row
interference); each row's first element is the start-of-text id, and every
position of a row beyond that row's own (wrapped, possibly truncated) token
content is zero. -/
theorem tokenize_shape (L sot eot : Nat) (encs : List (List Nat))
    (hL : 2 ≤ L) :
    (tokenize L sot eot encs).length = encs.length ∧
    (∀ row ∈ tokenize L sot eot encs, row.length = L) ∧
    (∀ i, (tokenize L sot eot encs).get? i =
      (encs.get? i).map (tokenizeRow L sot eot)) ∧
    (∀ e ∈ encs, (tokenizeRow L sot eot e).get? 0 = some sot ∧
      ∀ j, min (e.length + 2) L ≤ j → j < L →
        (tokenizeRow L sot eot e).get? j = some 0) := by
  refine ⟨by simp [tokenize], ?_, ?_, ?_⟩
  · intro row hrow
    obtain ⟨e, -, rfl⟩ := List.mem_map.mp hrow
    exact tokenizeRow_length L sot eot e
  · intro i
    rw [tokenize, List.get?_map]
  · intro e _
    constructor
    · rw [tokenizeRow_get? sot eot e (by omega)]
      rw [wrapTrunc_getD_zero sot eot e hL]
    · intro j hj1 hj2
      rw [tokenizeRow_get? sot eot e hj2]
      rw [List.getD_eq_default]
      rw [wrapTrunc_length]
      exact hj1

theorem tokenize_shape_witness :
    (tokenize 77 49406 49407 [[5], [6, 7]]).length = 2 ∧
    (∀ row ∈ tokenize 77 49406 49407 [[5], [6, 7]], row.length = 77) ∧
    (∀ i, (tokenize 77 49406 49407 [[5], [6, 7]]).get? i =
      (([[5], [6, 7]] : List (List Nat)).get? i).map
        (tokenizeRow 77 49406 49407)) ∧
    (∀ e ∈ ([[5], [6, 7]] : List (List Nat)),
      (tokenizeRow 77 49406 49407 e).get? 0 = some 49406 ∧
      ∀ j, min (e.length + 2) 77 ≤ j → j < 77 →
        (tokenizeRow 77 49406 49407 e).get? j = some 0) := by
  have h := tokenize_shape 77 49406 49407 [[5], [6, 7]] (by decide)
  exact ⟨h.1, h.2.1, h.2.2.1, h.2.2.2⟩

/-- C7: when the wrapped sequence `sot :: encoded ++ [eot]` is longer than
the context length `L`, the corresponding output row is exactly its first
`L` tokens with the last position `L - 1` forcibly set to the end-of-text
id, and its length is `L`. -/
theorem tokenize_truncation (L sot eot : Nat) (e : List Nat)
    (hL : 1 ≤ L) (hlong : L < (sot :: (e ++ [eot])).length) :
    tokenizeRow L sot eot e =
      ((sot :: (e ++ [eot])).take L).set (L - 1) eot ∧
    (tokenizeRow L sot eot e).length = L ∧
    (tokenizeRow L sot eot e).get? (L - 1) = some eot := by
  have hwt : wrapTrunc L sot eot e =
      ((sot :: (e ++ [eot])).take L).set (L - 1) eot := by
    rw [wrapTrunc, if_pos hlong]
  have hlen : (((sot :: (e ++ [eot])).take L).set (L - 1) eot).length = L := by
    simp only [List.length_cons, List.length_append, List.length_nil] at hlong
    simp only [List.length_set, List.length_take, List.length_cons,
      List.length_append, List.length_nil]
    omega
  have hrow : tokenizeRow L sot eot e =
      ((sot :: (e ++ [eot])).take L).set (L - 1) eot := by
    rw [tokenizeRow, hwt]
    exact range_map_getD hlen
  refine ⟨hrow, by rw [hrow, hlen], ?_⟩
  rw [hrow, List.get?_eq_getElem?,
    List.getElem?_set_self (by
      simp only [List.length_cons, List.length_append, List.length_nil]
        at hlong
      simp only [List.length_take, List.length_cons, List.length_append,
        List.length_nil]
      omega)]

theorem tokenize_truncation_witness :
    tokenizeRow 3 90 91 [1, 2, 3] =
      ((90 :: ([1, 2, 3] ++ [91])).take 3).set (3 - 1) 91 ∧
    (tokenizeRow 3 90 91 [1, 2, 3]).length = 3 ∧
    (tokenizeRow 3 90 91 [1, 2, 3]).get? (3 - 1) = some 91 :=
  tokenize_truncation 3 90 91 [1, 2, 3] (by decide) (by decide)

/-! ### C10: `encode` never emits the id 0 -/

theorem pushIds_zero_not_mem (encoder : Str → Option Nat) :
    ∀ (parts : List Str) (acc : List Nat), 0 ∉ acc →
      0 ∉ pushIds encoder acc parts := by
  intro parts
  induction parts with
  | nil => intro acc hacc; exact hacc
  | cons p ps ih =>
    intro acc hacc
    rw [pushIds, List.foldl_cons]
    apply ih
    by_cases ht : jsTruthy (encoder p) = true
    · rw [if_pos ht]
      intro hmem
      rcases List.mem_append.mp hmem with h | h
      · exact hacc h
      · cases he : encoder p with
        | none => rw [he] at ht; exact Bool.false_ne_true ht
        | some n =>
          rw [he] at ht
          have hn : n ≠ 0 := by simpa [jsTruthy] using ht
          rw [he] at h
          simp at h
          exact hn h.symm
    · rw [if_neg ht]
      exact hacc

theorem encode_foldlM_zero (cache : Str → Option Str)
    (ranks : Str → Option Nat) (encoder : Str → Option Nat)
    (byteEnc : Nat → Option Nat) :
    ∀ (chunks : List Str) (acc res : List Nat), 0 ∉ acc →
      chunks.foldlM
        (fun acc token =>
          (token.mapM byteEnc).map (fun encTok =>
            pushIds encoder acc (splitOnSpaces (bpe cache ranks encTok))))
        acc = some res →
      0 ∉ res := by
  intro chunks
  induction chunks with
  | nil =>
    intro acc res hacc h
    rw [List.foldlM] at h
    injection h with h
    rw [← h]
    exact hacc
  | cons c cs ih =>
    intro acc res hacc h
    rw [List.foldlM] at h
    cases hm : c.mapM byteEnc with
    | none => rw [hm] at h; simp at h
    | some et =>
      rw [hm] at h
      simp only [Option.map_some'] at h
      have h' : cs.foldlM
          (fun acc token =>
            (token.mapM byteEnc).map (fun encTok =>
              pushIds encoder acc (splitOnSpaces (bpe cache ranks encTok))))
          (pushIds encoder acc (splitOnSpaces (bpe cache ranks et)))
          = some res := h
      exact ih _ res
        (pushIds_zero_not_mem encoder _ acc hacc) h'

/-- C10: whenever `encode` succeeds, its result never contains the integer
0: the piece-to-id lookup pushes an id only when truthy, so the symbol with
vocabulary id 0 is always omitted; consequently (given nonzero special ids)
a 0 entry inside a packed `tokenize` row can only sit at or beyond the
row's own content, i.e. be padding. -/
theorem encode_never_emits_zero (cache : Str → Option Str)
    (ranks : Str → Option Nat) (encoder : Str → Option Nat)
    (byteEnc : Nat → Option Nat) (chunks : List Str) (res : List Nat)
    (h : encode cache ranks encoder byteEnc chunks = some res) :
    0 ∉ res ∧
    (∀ L sot eot j, sot ≠ 0 → eot ≠ 0 → j < min (res.length + 2) L →
      (tokenizeRow L sot eot res).get? j ≠ some 0) := by
  have hz : 0 ∉ res :=
    encode_foldlM_zero cache ranks encoder byteEnc chunks [] res
      (List.not_mem_nil 0) h
  refine ⟨hz, ?_⟩
  intro L sot eot j hsot heot hj
  rw [tokenizeRow_get? sot eot res (by omega)]
  intro hbad
  injection hbad with hbad
  have hlt : j < (wrapTrunc L sot eot res).length := by
    rw [wrapTrunc_length]; omega
  rw [List.getD_eq_get?, List.get?_eq_get hlt, Option.getD_some] at hbad
  have hmem : (0 : Nat) ∈ wrapTrunc L sot eot res := by
    rw [← hbad]
    exact List.get_mem _ _ _
  rcases wrapTrunc_mem hmem with h0 | h0 | h0
  · exact hsot h0.symm
  · exact hz h0
  · exact heot h0.symm

theorem encode_never_emits_zero_witness :
    0 ∉ ([] : List Nat) ∧
    (∀ L sot eot j, sot ≠ 0 → eot ≠ 0 →
      j < min (([] : List Nat).length + 2) L →
      (tokenizeRow L sot eot []).get? j ≠ some 0) :=
  encode_never_emits_zero (fun _ => none) (fun _ => none) (fun _ => none)
    (fun _ => none) [] [] rfl

/-! ### C3: `tokenize` never applies the configured reduction policy -/

/-- C3 (code evaluation): `tokenize` always head-truncates.  On the
oversized input `[1,2,3,4,5,6]` with context length 5 it keeps the head
window `[1,2,3]`, whereas the configured `simple` reduction policy
(`simpleMaskTokenize`) with the admissible random window start 1 keeps
`[2,3,4]` — `tokenize` never invokes `this.reductionFn`, which the
constructor stores but no code reads. -/
theorem tokenize_head_truncates_ignoring_reduction :
    tokenizeRow 5 90 91 [1, 2, 3, 4, 5, 6] = [90, 1, 2, 3, 91] ∧
    simpleMaskRow 5 90 91 1 [1, 2, 3, 4, 5, 6] = [90, 2, 3, 4, 91] ∧
    1 ≤ [1, 2, 3, 4, 5, 6].length - (5 - 2) ∧
    tokenizeRow 5 90 91 [1, 2, 3, 4, 5, 6] ≠
      simpleMaskRow 5 90 91 1 [1, 2, 3, 4, 5, 6] := by
  refine ⟨by decide, by decide, by decide, by decide⟩

/-! ### C4: a piece present in the vocabulary with id 0 is dropped -/

theorem bpe_double_exclaim :
    bpe (cacheOf [sotSym, eotSym]) (ranksOf []) [33, 33] =
      [33, 32, 33, 60, 47, 119, 62] := by
  rw [bpe]
  have hc : cacheOf [sotSym, eotSym] [33, 33] = none := by decide
  rw [hc]
  show bpeCore (ranksOf []) [33, 33] = [33, 32, 33, 60, 47, 119, 62]
  rw [bpeCore]
  show (if getPairs (initWord [33, 33]) = [] then ([33, 33] ++ eow)
    else joinSpaces (bpeLoop (ranksOf []) (initWord [33, 33]))) =
    [33, 32, 33, 60, 47, 119, 62]
  rw [if_neg (by decide)]
  have hl : bpeLoop (ranksOf []) (initWord [33, 33]) = initWord [33, 33] :=
    bpeLoop_rank_none rfl rfl
  rw [hl]
  decide

set_option maxHeartbeats 4000000 in
/-- C4 (code evaluation): on the chunk `"!!"` (with no merges), the BPE
output pieces are `"!"` and `"!</w>"`; both are present in the vocabulary,
`"!"` with id 0 and `"!</w>"` with id 256, yet `encode` returns only
`[256]`: the truthiness check `if (id)` silently drops the present piece
whose id is 0, contradicting "only pieces absent from the vocabulary are
dropped". -/
theorem encode_drops_present_id_zero :
    encode (cacheOf [sotSym, eotSym]) (ranksOf [])
      (encoderGet (fullVocab [] [])) byteEncode [[33, 33]] = some [256] ∧
    encoderGet (fullVocab [] []) [33] = some 0 ∧
    splitOnSpaces (bpe (cacheOf [sotSym, eotSym]) (ranksOf []) [33, 33]) =
      [[33], [33, 60, 47, 119, 62]] := by
  refine ⟨?_, by decide, by rw [bpe_double_exclaim]; decide⟩
  simp only [encode, List.foldlM]
  have hm : List.mapM byteEncode [33, 33] = some [33, 33] := by decide
  rw [hm]
  simp only [Option.map_some']
  rw [bpe_double_exclaim]
  decide

/-! ### C5: `decode` replaces only the first end-of-word marker -/

set_option maxHeartbeats 4000000 in
/-- C5 (code evaluation): decoding the ids of `"a</w>"` (320) and `"b</w>"`
(321) in the no-merges vocabulary yields `"a b</w>"`: JavaScript's
`.replace("</w>", " ")` with a string pattern rewrites only the first
occurrence, so the second marker survives, contradicting "replaces every
occurrence of '</w>' with a space" (which would give `"a b "`). -/
theorem decode_replaces_only_first_eow :
    decode (decoderGet (fullVocab [] [])) byteDecode [320, 321] =
      [97, 32, 98, 60, 47, 119, 62] ∧
    decode (decoderGet (fullVocab [] [])) byteDecode [320, 321] ≠
      [97, 32, 98, 32] := by
  have h1 : decode (decoderGet (fullVocab [] [])) byteDecode [320, 321] =
      replaceFirst eow [32]
        (utf8Decode [97, 60, 47, 119, 62, 98, 60, 47, 119, 62]) := by
    rfl
  have h2 : utf8Decode [97, 60, 47, 119, 62, 98, 60, 47, 119, 62] =
      [97, 60, 47, 119, 62, 98, 60, 47, 119, 62] :=
    utf8Decode_ascii _ (by decide)
  rw [h1, h2]
  exact ⟨by decide, by decide⟩
